import Mathlib

/-!
Verification of the Huffman codec in `backend/internal/huffman/huffman.go`
(repository kelbwah/huffmin).

The Go code is shallowly embedded as executable Lean functions:

* Go `[]byte` becomes `List Nat`, each element intended to be `< 256`.
* Go `map[byte]int` becomes an association list `List (Nat × Nat)` with
  unique keys.  Go's `range` over a map visits entries in an unspecified
  (randomized) order, so every function that ranges over a map takes an
  explicit reordering function; a run of the Go program corresponds to an
  instantiation whose reordering is a permutation of the entry list.
* Go `*Node` pointers become the inductive `Node`, with `Node.nil`
  standing for the nil pointer.
* Fixed-width writes (`uint16`/`uint32`/`uint64`, little endian) are
  modelled with explicit `% 2^w` truncation.
* A Go runtime panic (nil-pointer dereference, index out of range) is a
  distinguished `Outcome.crash` result, distinct from errors that the Go
  functions return to the caller.
-/

namespace Huffmin

/-! ## Little-endian fixed-width serialization (encoding/binary, LittleEndian) -/

/-- Bytes written by `binary.Write(buf, binary.LittleEndian, uint16(n))`. -/
def u16le (n : Nat) : List Nat :=
  [n % 256, n / 256 % 256]

/-- Bytes written by `binary.Write(buf, binary.LittleEndian, uint32(n))`. -/
def u32le (n : Nat) : List Nat :=
  [n % 256, n / 256 % 256, n / 65536 % 256, n / 16777216 % 256]

/-- Bytes written by `binary.Write(buf, binary.LittleEndian, uint64(n))`. -/
def u64le (n : Nat) : List Nat :=
  [n % 256, n / 2 ^ 8 % 256, n / 2 ^ 16 % 256, n / 2 ^ 24 % 256,
   n / 2 ^ 32 % 256, n / 2 ^ 40 % 256, n / 2 ^ 48 % 256, n / 2 ^ 56 % 256]

/-- Model of `binary.Read` of a `uint16`: consumes two bytes or fails (EOF /
unexpected EOF both surface as an error in the Go code). -/
def readU16 : List Nat → Option (Nat × List Nat)
  | b0 :: b1 :: rest => some (b0 + 256 * b1, rest)
  | _ => none

/-- Model of `binary.Read` of a `uint32`: consumes four bytes or fails. -/
def readU32 : List Nat → Option (Nat × List Nat)
  | b0 :: b1 :: b2 :: b3 :: rest =>
      some (b0 + 256 * b1 + 65536 * b2 + 16777216 * b3, rest)
  | _ => none

/-- Model of `binary.Read` of a `uint64`: consumes eight bytes or fails. -/
def readU64 : List Nat → Option (Nat × List Nat)
  | b0 :: b1 :: b2 :: b3 :: b4 :: b5 :: b6 :: b7 :: rest =>
      some (b0 + 2 ^ 8 * b1 + 2 ^ 16 * b2 + 2 ^ 24 * b3 + 2 ^ 32 * b4 +
            2 ^ 40 * b5 + 2 ^ 48 * b6 + 2 ^ 56 * b7, rest)
  | _ => none

/-! ## Go map operations on association lists -/

/-- Go map assignment `m[k] = v`: overwrite the existing entry for `k`,
or append a fresh one. -/
def updateOrInsert {β : Type} (k : Nat) (v : β) : List (Nat × β) → List (Nat × β)
  | [] => [(k, v)]
  | (a, b) :: rest =>
      if a = k then (a, v) :: rest else (a, b) :: updateOrInsert k v rest

/-- Go map increment `m[k]++` (missing key counts as zero). -/
def bumpFreq (k : Nat) : List (Nat × Nat) → List (Nat × Nat)
  | [] => [(k, 1)]
  | (a, v) :: rest =>
      if a = k then (a, v + 1) :: rest else (a, v) :: bumpFreq k rest

/-! ## The Huffman tree (`type Node struct` with `*Node` children) -/

/-- A Go `*Node`: either the nil pointer or a node with `Char`, `Freq`,
`MinChar` fields and two child pointers. -/
inductive Node where
  | nil : Node
  | mk (char freq minChar : Nat) (left right : Node) : Node
deriving DecidableEq, Repr

def Node.char : Node → Nat
  | .nil => 0
  | .mk c _ _ _ _ => c

def Node.freq : Node → Nat
  | .nil => 0
  | .mk _ f _ _ _ => f

def Node.minChar : Node → Nat
  | .nil => 0
  | .mk _ _ mc _ _ => mc

def Node.left : Node → Node
  | .nil => .nil
  | .mk _ _ _ l _ => l

def Node.right : Node → Node
  | .nil => .nil
  | .mk _ _ _ _ r => r

/-- Model of `PriorityQueue.Less`: order by `Freq`, break ties by `MinChar`. -/
def lessNode (a b : Node) : Bool :=
  if a.freq ≠ b.freq then decide (a.freq < b.freq) else decide (a.minChar < b.minChar)

/-- Contract of `container/heap.Pop` on `PriorityQueue`: remove a least
element under `lessNode`.  When no two elements tie on both `Freq` and
`MinChar` — which holds in every queue this program builds — the least
element is unique, so any conforming heap returns the same node; this
model removes the first minimal element. -/
def popMin : List Node → Option (Node × List Node)
  | [] => none
  | x :: xs =>
      match popMin xs with
      | none => some (x, [])
      | some (m, rest) =>
          if lessNode m x then some (m, x :: rest) else some (x, xs)

/-- The merge loop of `buildHuffmanTree`: while more than one node
remains, pop the two least nodes and push their merge (`Char` is the Go
zero value 0 for merged nodes); finally pop the survivor.  `fuel` bounds
the number of iterations; `fuel = pq.length` always suffices, since every
iteration shrinks the queue by one.  The `fuel = 0` and empty-queue arms
are unreachable from `buildHuffmanTree` (where Go's `heap.Pop` would
panic) and return the nil pointer. -/
def mergeLoopF : Nat → List Node → Node
  | 0, _ => .nil
  | fuel + 1, pq =>
      match popMin pq with
      | none => .nil
      | some (left, r1) =>
          match popMin r1 with
          | none => left
          | some (right, r2) =>
              mergeLoopF fuel
                (Node.mk 0 (left.freq + right.freq)
                  (min left.minChar right.minChar) left right :: r2)

/-- Model of `buildHuffmanTree`: returns nil for an empty table, otherwise pushes
one leaf per entry (in map-iteration order given by the caller) and runs
the merge loop. -/
def buildHuffmanTree (entries : List (Nat × Nat)) : Node :=
  if entries = [] then .nil
  else mergeLoopF entries.length
    (entries.map fun e => Node.mk e.1 e.2 e.1 .nil .nil)

/-- Model of `buildFrequencyTable`: count byte frequencies in `data`. -/
def buildFrequencyTable (data : List Nat) : List (Nat × Nat) :=
  data.foldl (fun m b => bumpFreq b m) []

/-- Model of `generateCodes`: walk the tree, assigning `pre` to a leaf and
extending with `0` (false) left, `1` (true) right.  Note: no special
case for a root that is itself a leaf — it receives the empty code. -/
def generateCodes : Node → List Bool → List (Nat × List Bool) → List (Nat × List Bool)
  | .nil, _, codeMap => codeMap
  | .mk c _ _ .nil .nil, pre, codeMap => updateOrInsert c pre codeMap
  | .mk _ _ _ l r, pre, codeMap =>
      generateCodes r (pre ++ [true]) (generateCodes l (pre ++ [false]) codeMap)

/-- Go map read `m[k]`: the stored value, or `none` when absent (the
caller supplies the zero value). -/
def lookupFT {β : Type} (k : Nat) : List (Nat × β) → Option β
  | [] => none
  | (a, v) :: rest => if k = a then some v else lookupFT k rest

/-! ## Bit packer (`encodeDataWithCount`) -/

/-- Accumulator state of the bit packer: flushed bytes, the byte being
filled, how many bits of it are used, and the running total bit count. -/
structure BitAcc where
  buf : List Nat
  bitBuf : Nat
  bitCount : Nat
  totalBits : Nat
deriving DecidableEq, Repr

/-- One iteration of the inner loop of `encodeDataWithCount`: set bit
`7 - bitCount` of `bitBuf` if the code bit is 1, and flush on 8 bits. -/
def pushBit (acc : BitAcc) (b : Bool) : BitAcc :=
  let bitBuf := if b then acc.bitBuf ||| (1 <<< (7 - acc.bitCount)) else acc.bitBuf
  let bitCount := acc.bitCount + 1
  let totalBits := acc.totalBits + 1
  if bitCount = 8 then ⟨acc.buf ++ [bitBuf], 0, 0, totalBits⟩
  else ⟨acc.buf, bitBuf, bitCount, totalBits⟩

/-- Model of `encodeDataWithCount`: append each input byte's code bit-by-bit,
flush a final partial byte, and return the bytes with the exact bit
count.  A missing `codeMap` entry yields the empty Go string, i.e. no
bits.  (The Go function's error result is always nil.) -/
def encodeDataWithCount (data : List Nat) (codeMap : List (Nat × List Bool)) :
    List Nat × Nat :=
  let acc := data.foldl
    (fun acc b => ((lookupFT b codeMap).getD []).foldl pushBit acc)
    ⟨[], 0, 0, 0⟩
  (if acc.bitCount > 0 then acc.buf ++ [acc.bitBuf] else acc.buf, acc.totalBits)

/-! ## Container codec -/

/-- The per-entry body of the header: `symbol` byte then `uint32` LE
frequency, for each entry in map-iteration order. -/
def headerEntries : List (Nat × Nat) → List Nat
  | [] => []
  | e :: rest => e.1 :: (u32le e.2 ++ headerEntries rest)

/-- Model of `writeHeader`: `uint16` LE entry count, then the entries.  (The Go
function's error result is always nil when writing to a `bytes.Buffer`.) -/
def writeHeader (entries : List (Nat × Nat)) : List Nat :=
  u16le entries.length ++ headerEntries entries

/-- The single error `HuffmanCompress` can report on in-memory data:
`"cannot compress empty file"`. -/
inductive CErr where
  | emptyInput : CErr
deriving DecidableEq, Repr

/-- Model of `HuffmanCompress` on the bytes read from the file.  `hdrOrder` and
`pqOrder` give the map-iteration orders used by `writeHeader` and
`buildHuffmanTree` respectively; a real run instantiates them with some
permutation of the frequency-table entries. -/
def HuffmanCompress (data : List Nat)
    (hdrOrder pqOrder : List (Nat × Nat) → List (Nat × Nat)) :
    Except CErr (List Nat) :=
  if data = [] then .error .emptyInput
  else
    let freqTable := buildFrequencyTable data
    let root := buildHuffmanTree (pqOrder freqTable)
    let codeMap := generateCodes root [] []
    let p := encodeDataWithCount data codeMap
    let head := writeHeader (hdrOrder freqTable)
    .ok (head ++ u64le p.2 ++ p.1)

/-! ## Decompression -/

/-- The errors `HuffmanDecompress` returns, one per `fmt.Errorf` site. -/
inductive DErr where
  | readHeaderEntriesFailed : DErr
  | readHeaderByteFailed : DErr
  | readHeaderFreqFailed : DErr
  | readBitLengthFailed : DErr
  | invalidTree : DErr
deriving DecidableEq, Repr

/-- A Go runtime panic reachable in `HuffmanDecompress`. -/
inductive PanicKind where
  | nilDeref : PanicKind
  | indexOutOfRange : PanicKind
deriving DecidableEq, Repr

/-- Result of a Go function that may return a value, return an error, or
panic. -/
inductive Outcome (α : Type) where
  | ok (val : α) : Outcome α
  | error (e : DErr) : Outcome α
  | crash (p : PanicKind) : Outcome α
deriving DecidableEq, Repr

/-- The header-entry loop of `HuffmanDecompress`: read `n` times a
symbol byte and a `uint32` frequency, entering each into the map. -/
def readEntries : Nat → List Nat → List (Nat × Nat) →
    Except DErr (List (Nat × Nat) × List Nat)
  | 0, l, acc => .ok (acc, l)
  | n + 1, l, acc =>
      match l with
      | [] => .error .readHeaderByteFailed
      | b :: l1 =>
          match readU32 l1 with
          | none => .error .readHeaderFreqFailed
          | some (f, l2) => readEntries n l2 (updateOrInsert b f acc)

/-- The header-parsing prefix of `HuffmanDecompress`: entry count, then
the entries. -/
def parseHeader (blob : List Nat) : Except DErr (List (Nat × Nat) × List Nat) :=
  match readU16 blob with
  | none => .error .readHeaderEntriesFailed
  | some (n, r) => readEntries n r []

/-- One bit of the decoder's walk (the body of the inner loop): step to
the left child on bit 0 and the right child on bit 1; `none` models the
Go code's panic when the step lands on the nil pointer and the
subsequent `node.Left` check dereferences it; on reaching a leaf, emit
its symbol and reset the walker to `root`. -/
def stepBit (root node : Node) (bit : Nat) (out : List Nat) :
    Option (Node × List Nat) :=
  match node with
  | .nil => none
  | .mk _ _ _ l r =>
      match (if bit = 0 then l else r) with
      | .nil => none
      | .mk c f mc nl nr =>
          if nl = .nil ∧ nr = .nil then some (root, out ++ [c])
          else some (.mk c f mc nl nr, out)

/-- The inner loop of the decoder: consume bits `j, j+1, …, 7` of
`byteVal` (MSB first) while bits remain, walking the tree one `stepBit`
at a time.  Returns `none` when a step dereferences nil; otherwise the
walker state and the remaining bit budget. -/
def decodeInner (root : Node) (byteVal : Nat) :
    Nat → Node → List Nat → Nat → Option (Node × List Nat × Nat)
  | _, node, out, 0 => some (node, out, 0)
  | j, node, out, rem + 1 =>
      if 8 ≤ j then some (node, out, rem + 1)
      else
        match stepBit root node ((byteVal >>> (7 - j)) % 2) out with
        | none => none
        | some (node2, out2) => decodeInner root byteVal (j + 1) node2 out2 rem

/-- The outer loop of the decoder: while bits remain, take the next byte
of `bitData` — panicking with an index-out-of-range when none is left —
and run the inner loop on it. -/
def decodeOuter (root : Node) : Node → List Nat → List Nat → Nat → Outcome (List Nat)
  | _, out, _, 0 => .ok out
  | _, _, [], _ + 1 => .crash .indexOutOfRange
  | node, out, byteVal :: rest, rem + 1 =>
      match decodeInner root byteVal 0 node out (rem + 1) with
      | none => .crash .nilDeref
      | some (node2, out2, rem2) => decodeOuter root node2 out2 rest rem2

/-- Model of `HuffmanDecompress`: parse the header, the `uint64` bit length, and
the trailing packed bytes (`io.ReadAll` on a `bytes.Reader` cannot
fail), rebuild the tree — `pqOrder` gives the map-iteration order — and
decode exactly `totalBits` bits. -/
def HuffmanDecompress (blob : List Nat)
    (pqOrder : List (Nat × Nat) → List (Nat × Nat)) : Outcome (List Nat) :=
  match parseHeader blob with
  | .error e => .error e
  | .ok (freq, r1) =>
      match readU64 r1 with
      | none => .error .readBitLengthFailed
      | some (totalBits, bitData) =>
          let root := buildHuffmanTree (pqOrder freq)
          if root = .nil then .error .invalidTree
          else decodeOuter root root [] bitData totalBits

deriving instance DecidableEq for Except

/-! ## Definitions used only to state properties -/

/-- The multiset of symbols stored at the leaves of a tree. -/
def Node.chars : Node → List Nat
  | .nil => []
  | .mk c _ _ .nil .nil => [c]
  | .mk _ _ _ l r => Node.chars l ++ Node.chars r

/-- A tree is full when it is a leaf or an internal node with two full
children; the nil pointer is not full.  Every tree `buildHuffmanTree`
returns for a non-empty table is full. -/
def Node.full : Node → Bool
  | .nil => false
  | .mk _ _ _ .nil .nil => true
  | .mk _ _ _ l r => l.full && r.full

/-- Predicate `Leads t path a`: following `path` (false = left, true = right) from
the root of `t` ends at a leaf holding symbol `a`.  This is exactly the
route `generateCodes` takes when it records a code. -/
inductive Leads : Node → List Bool → Nat → Prop where
  | leaf (c f mc : Nat) : Leads (.mk c f mc .nil .nil) [] c
  | left {l : Node} {path : List Bool} {a : Nat} (c f mc : Nat) (r : Node) :
      Leads l path a → Leads (.mk c f mc l r) (false :: path) a
  | right {r : Node} {path : List Bool} {a : Nat} (c f mc : Nat) (l : Node) :
      Leads r path a → Leads (.mk c f mc l r) (true :: path) a

/-- Bit `k` (MSB-first within each byte) of a packed byte sequence. -/
def bitAt (l : List Nat) (k : Nat) : Nat :=
  ((l.getD (k / 8) 0) >>> (7 - k % 8)) % 2

/-- The errors reported when the blob is truncated before or inside a
declared field (the spec's `FramingError`). -/
def isFramingError {α : Type} : Outcome α → Bool
  | .error .readHeaderEntriesFailed => true
  | .error .readHeaderByteFailed => true
  | .error .readHeaderFreqFailed => true
  | .error .readBitLengthFailed => true
  | _ => false

/-- The entry count a blob declares in its first two bytes (0 when the
blob is too short to contain them). -/
def declaredEntries (blob : List Nat) : Nat :=
  match readU16 blob with
  | none => 0
  | some (n, _) => n

/-- The queue invariant maintained by the merge loop: every node stores
a `MinChar` that really occurs among its leaves, and the leaf-symbol
sets of distinct queue members are disjoint. -/
def InvPQ (pq : List Node) : Prop :=
  (∀ t ∈ pq, t.minChar ∈ t.chars) ∧
    pq.Pairwise (fun a b => ∀ c ∈ a.chars, c ∉ b.chars)

/-! Sanity checks on the repository's own test inputs. -/

example :
    HuffmanCompress [0x00, 0xFF, 0xAB, 0xAB, 0xAB, 0x01, 0x02, 0x03] id id =
      .ok [6, 0, 0, 1, 0, 0, 0, 255, 1, 0, 0, 0, 171, 3, 0, 0, 0, 1, 1, 0, 0, 0,
           2, 1, 0, 0, 0, 3, 1, 0, 0, 0, 20, 0, 0, 0, 0, 0, 0, 0, 236, 62, 80] := by
  decide

example :
    (HuffmanCompress [0x00, 0xFF, 0xAB, 0xAB, 0xAB, 0x01, 0x02, 0x03] id id).toOption.bind
      (fun blob => match HuffmanDecompress blob id with
        | .ok out => some out
        | _ => none) = some [0x00, 0xFF, 0xAB, 0xAB, 0xAB, 0x01, 0x02, 0x03] := by
  decide

end Huffmin

namespace Huffmin

/-! ## Parsing and serialization lemmas -/

theorem readU16_none_iff (l : List Nat) : readU16 l = none ↔ l.length < 2 := by
  rcases l with _ | ⟨a, _ | ⟨b, t⟩⟩ <;> simp [readU16]

theorem readU16_some_length {l : List Nat} {n : Nat} {r : List Nat}
    (h : readU16 l = some (n, r)) : r.length + 2 = l.length := by
  rcases l with _ | ⟨a, _ | ⟨b, t⟩⟩ <;> simp_all [readU16]

theorem readU32_none {l : List Nat} (h : l.length < 4) : readU32 l = none := by
  rcases l with _ | ⟨a, _ | ⟨b, _ | ⟨c, _ | ⟨d, t⟩⟩⟩⟩ <;> simp_all [readU32] <;> omega

theorem readU32_some_length {l : List Nat} {f : Nat} {r : List Nat}
    (h : readU32 l = some (f, r)) : r.length + 4 = l.length := by
  rcases l with _ | ⟨a, _ | ⟨b, _ | ⟨c, _ | ⟨d, t⟩⟩⟩⟩ <;> simp_all [readU32]

theorem readU64_none {l : List Nat} (h : l.length < 8) : readU64 l = none := by
  rcases l with _ | ⟨a, _ | ⟨b, _ | ⟨c, _ | ⟨d, _ | ⟨e, _ | ⟨f, _ | ⟨g, _ | ⟨hh, t⟩⟩⟩⟩⟩⟩⟩⟩ <;>
    simp_all [readU64] <;> omega

theorem readU32_u32le (n : Nat) (rest : List Nat) :
    readU32 (u32le n ++ rest) = some (n % 2 ^ 32, rest) := by
  simp [u32le, readU32]
  omega

theorem readU64_u64le (n : Nat) (rest : List Nat) :
    readU64 (u64le n ++ rest) = some (n % 2 ^ 64, rest) := by
  simp [u64le, readU64]
  omega

theorem mem_updateOrInsert {β : Type} {k : Nat} {v : β} {m : List (Nat × β)}
    {e : Nat × β} (h : e ∈ updateOrInsert k v m) : e = (k, v) ∨ e ∈ m := by
  induction m with
  | nil => simpa [updateOrInsert] using h
  | cons a rest ih =>
      rcases a with ⟨a1, a2⟩
      by_cases hk : a1 = k
      · simp [updateOrInsert, hk] at h
        rcases h with h | h
        · subst hk; left; simp [h]
        · right; simp [h]
      · simp [updateOrInsert, hk] at h
        rcases h with h | h
        · right; simp [h]
        · rcases ih h with h' | h'
          · left; exact h'
          · right; simp [h']

theorem updateOrInsert_append {β : Type} (k : Nat) (v : β) (m : List (Nat × β))
    (h : ∀ a ∈ m, a.1 ≠ k) : updateOrInsert k v m = m ++ [(k, v)] := by
  induction m with
  | nil => rfl
  | cons a rest ih =>
      have ha : a.1 ≠ k := h a (by simp)
      rcases a with ⟨a1, a2⟩
      simp only [updateOrInsert, if_neg ha]
      rw [ih fun b hb => h b (by simp [hb])]
      simp

theorem readEntries_headerEntries (E : List (Nat × Nat)) (rest : List Nat) :
    ∀ acc : List (Nat × Nat),
      (∀ e ∈ E, e.2 < 2 ^ 32) →
      (E.map Prod.fst).Nodup →
      (∀ e ∈ E, ∀ a ∈ acc, a.1 ≠ e.1) →
      readEntries E.length (headerEntries E ++ rest) acc = .ok (acc ++ E, rest) := by
  induction E with
  | nil => intro acc _ _ _; simp [readEntries, headerEntries]
  | cons e E ih =>
      intro acc hb hnd hdisj
      rcases e with ⟨b, f⟩
      have hf : f < 2 ^ 32 := hb (b, f) (by simp)
      simp only [headerEntries, List.length_cons, List.cons_append, List.append_assoc]
      simp only [readEntries, readU32_u32le, Nat.mod_eq_of_lt hf]
      rw [updateOrInsert_append b f acc (fun a ha => hdisj (b, f) (by simp) a ha)]
      have hnd' : (b :: E.map Prod.fst).Nodup := by simpa using hnd
      have hdisj' : ∀ x ∈ E, ∀ a ∈ acc ++ [(b, f)], a.1 ≠ x.1 := by
        intro x hx a ha
        rcases List.mem_append.mp ha with ha' | ha'
        · exact hdisj x (by simp [hx]) a ha'
        · have haeq : a = (b, f) := by simpa using ha'
          subst haeq
          intro hcontra
          have hmem : b ∈ E.map Prod.fst := List.mem_map.mpr ⟨x, hx, hcontra.symm⟩
          exact (List.nodup_cons.mp hnd').1 hmem
      rw [ih (acc ++ [(b, f)]) (fun x hx => hb x (by simp [hx])) hnd'.of_cons hdisj']
      simp

theorem parseHeader_writeHeader (E : List (Nat × Nat)) (rest : List Nat)
    (hb : ∀ e ∈ E, e.2 < 2 ^ 32)
    (hnd : (E.map Prod.fst).Nodup)
    (hlen : E.length < 2 ^ 16) :
    parseHeader (writeHeader E ++ rest) = .ok (E, rest) := by
  have hment : E.length % 256 + 256 * (E.length / 256 % 256) = E.length := by omega
  simp only [parseHeader, writeHeader, u16le, List.cons_append, List.append_assoc,
    List.nil_append, readU16, hment]
  simpa using readEntries_headerEntries E rest [] hb hnd (by simp)

/-! ## Claim C7: empty input is rejected -/

/-- Claim C7: `HuffmanCompress` on a zero-length input always fails with
the empty-input error (`"cannot compress empty file"`) and never
produces a blob, whatever map-iteration orders the run uses. -/
theorem compress_empty_always_emptyInputError
    (hdrOrder pqOrder : List (Nat × Nat) → List (Nat × Nat)) :
    HuffmanCompress [] hdrOrder pqOrder = .error .emptyInput := rfl

/-! ## Claim C1: the round-trip property fails on single-symbol inputs -/

/-- Claim C1 (failing input): for the one-byte input `[0x41]` the blob
records `totalBitCount = 0`, and decompressing it yields the empty
sequence, not the original byte — the round-trip property fails.  (With
a single table entry, map-iteration order is forced, so `id` covers
every run.) -/
theorem roundtrip_single_byte_returns_empty :
    HuffmanCompress [65] id id =
      .ok [1, 0, 65, 1, 0, 0, 0, 0, 0, 0, 0, 0, 0, 0, 0] ∧
    HuffmanDecompress [1, 0, 65, 1, 0, 0, 0, 0, 0, 0, 0, 0, 0, 0, 0] id =
      .ok [] := by
  decide

/-! ## Claim C2: no one-bit special case for the single-leaf tree -/

/-- Claim C2 (failing input): a frequency table with the single entry
`(0x41, 10)` yields the empty-string code, not a one-bit code, and the
blob for ten copies of `0x41` decompresses to zero bytes instead of
ten. -/
theorem singleLeaf_code_empty_roundtrip_empty :
    generateCodes (buildHuffmanTree [(65, 10)]) [] [] = [(65, [])] ∧
    HuffmanCompress (List.replicate 10 65) id id =
      .ok [1, 0, 65, 10, 0, 0, 0, 0, 0, 0, 0, 0, 0, 0, 0] ∧
    HuffmanDecompress [1, 0, 65, 10, 0, 0, 0, 0, 0, 0, 0, 0, 0, 0, 0] id =
      .ok [] := by
  decide

/-! ## Claim C3: an exhausted bitstream panics instead of returning an error -/

/-- Claim C3 (failing input): a blob with a well-formed two-entry header
declaring `totalBitCount = 9` but carrying only one packed byte makes
`HuffmanDecompress` index past the end of `bitData` — a runtime panic,
not a returned error.  Both map-iteration orders of the two-entry table
are covered. -/
theorem exhausted_bitstream_panics :
    HuffmanDecompress
      [2, 0, 65, 1, 0, 0, 0, 66, 1, 0, 0, 0, 9, 0, 0, 0, 0, 0, 0, 0, 170] id =
      .crash .indexOutOfRange ∧
    HuffmanDecompress
      [2, 0, 65, 1, 0, 0, 0, 66, 1, 0, 0, 0, 9, 0, 0, 0, 0, 0, 0, 0, 170]
      (fun l => l.reverse) =
      .crash .indexOutOfRange := by
  decide

/-! ## Claim C10: decoding a single-entry blob dereferences nil -/

/-- Claim C10 (counterexample): a blob whose header holds exactly one
entry and whose `totalBitCount` is 1 makes the decoder step from the
leaf root to a nil child; the following `node.Left` check dereferences
the nil pointer, so `HuffmanDecompress` panics rather than terminating
normally. -/
theorem singleEntry_positiveBits_nilDeref :
    HuffmanDecompress [1, 0, 65, 10, 0, 0, 0, 1, 0, 0, 0, 0, 0, 0, 0, 0] id =
      .crash .nilDeref := by
  decide

/-! ## Claim C4: blobs are not byte-identical across runs -/

/-- Claim C4 (counterexample): for the input `"ab"` two legal
map-iteration orders of the frequency table — both permutations of it —
serialize the header entries in different orders, so two invocations of
compress can produce different blobs. -/
theorem compress_blob_depends_on_map_order :
    (buildFrequencyTable [97, 98]).reverse.Perm (buildFrequencyTable [97, 98]) ∧
    HuffmanCompress [97, 98] (fun l => l.reverse) (fun l => l.reverse) ≠
      HuffmanCompress [97, 98] id id := by
  decide


/-! ## Frequency-table lemmas -/

theorem mem_keys_bumpFreq {a k : Nat} : ∀ {m : List (Nat × Nat)},
    a ∈ (bumpFreq k m).map Prod.fst → a ∈ m.map Prod.fst ∨ a = k := by
  intro m
  induction m with
  | nil => intro h; right; simpa [bumpFreq] using h
  | cons e rest ih =>
      rcases e with ⟨a1, v⟩
      by_cases hk : a1 = k
      · intro h
        simp only [bumpFreq, if_pos hk] at h
        left; simpa using h
      · intro h
        simp only [bumpFreq, if_neg hk] at h
        rcases (by simpa using h : a = a1 ∨ a ∈ (bumpFreq k rest).map Prod.fst) with h' | h'
        · left; simp [h']
        · rcases ih h' with h'' | h''
          · left; simp [h'']
          · right; exact h''

theorem keys_bumpFreq_nodup {k : Nat} : ∀ {m : List (Nat × Nat)},
    (m.map Prod.fst).Nodup → ((bumpFreq k m).map Prod.fst).Nodup := by
  intro m
  induction m with
  | nil => intro _; simp [bumpFreq]
  | cons e rest ih =>
      rcases e with ⟨a1, v⟩
      intro h
      rw [List.map_cons, List.nodup_cons] at h
      by_cases hk : a1 = k
      · simp only [bumpFreq, if_pos hk, List.map_cons]
        exact List.nodup_cons.mpr h
      · have hnotmem : a1 ∉ (bumpFreq k rest).map Prod.fst := by
          intro hmem
          rcases mem_keys_bumpFreq hmem with hm | hm
          · exact h.1 hm
          · exact hk hm
        simp only [bumpFreq, if_neg hk, List.map_cons]
        exact List.nodup_cons.mpr ⟨hnotmem, ih h.2⟩

theorem bumpFreq_val_le {k c : Nat} : ∀ {m : List (Nat × Nat)},
    (∀ e ∈ m, e.2 ≤ c) → ∀ e ∈ bumpFreq k m, e.2 ≤ c + 1 := by
  intro m
  induction m with
  | nil =>
      intro _ e he
      have : e = (k, 1) := by simpa [bumpFreq] using he
      subst this
      simp
  | cons x rest ih =>
      rcases x with ⟨a1, v⟩
      intro h e he
      by_cases hk : a1 = k
      · simp only [bumpFreq, if_pos hk] at he
        rcases (by simpa using he : e = (a1, v + 1) ∨ e ∈ rest) with h' | h'
        · subst h'
          have := h (a1, v) (by simp)
          simpa using Nat.add_le_add_right this 1
        · exact Nat.le_succ_of_le (h e (by simp [h']))
      · simp only [bumpFreq, if_neg hk] at he
        rcases (by simpa using he : e = (a1, v) ∨ e ∈ bumpFreq k rest) with h' | h'
        · subst h'
          exact Nat.le_succ_of_le (h (a1, v) (by simp))
        · exact ih (fun x hx => h x (by simp [hx])) e h'

theorem foldl_bumpFreq_keys_nodup : ∀ (data : List Nat) (m : List (Nat × Nat)),
    (m.map Prod.fst).Nodup →
    ((data.foldl (fun m b => bumpFreq b m) m).map Prod.fst).Nodup := by
  intro data
  induction data with
  | nil => intro m h; simpa using h
  | cons d data ih => intro m h; exact ih (bumpFreq d m) (keys_bumpFreq_nodup h)

theorem foldl_bumpFreq_keys_sub : ∀ (data : List Nat) (m : List (Nat × Nat)) (a : Nat),
    a ∈ (data.foldl (fun m b => bumpFreq b m) m).map Prod.fst →
    a ∈ m.map Prod.fst ∨ a ∈ data := by
  intro data
  induction data with
  | nil => intro m a h; left; simpa using h
  | cons d data ih =>
      intro m a h
      rcases ih (bumpFreq d m) a h with h' | h'
      · rcases mem_keys_bumpFreq h' with h'' | h''
        · left; exact h''
        · right; simp [h'']
      · right; simp [h']

theorem foldl_bumpFreq_val_le : ∀ (data : List Nat) (m : List (Nat × Nat)) (c : Nat),
    (∀ e ∈ m, e.2 ≤ c) →
    ∀ e ∈ data.foldl (fun m b => bumpFreq b m) m, e.2 ≤ c + data.length := by
  intro data
  induction data with
  | nil => intro m c h e he; simpa using h e he
  | cons d data ih =>
      intro m c h e he
      have := ih (bumpFreq d m) (c + 1) (bumpFreq_val_le h) e he
      simpa [Nat.add_assoc, Nat.add_comm 1 data.length] using this

theorem buildFrequencyTable_keys_nodup (data : List Nat) :
    ((buildFrequencyTable data).map Prod.fst).Nodup :=
  foldl_bumpFreq_keys_nodup data [] (by simp)

theorem buildFrequencyTable_keys_mem {data : List Nat} {a : Nat}
    (h : a ∈ (buildFrequencyTable data).map Prod.fst) : a ∈ data := by
  rcases foldl_bumpFreq_keys_sub data [] a h with h' | h'
  · simp at h'
  · exact h'

theorem buildFrequencyTable_val_le {data : List Nat} :
    ∀ e ∈ buildFrequencyTable data, e.2 ≤ data.length := by
  intro e he
  simpa using foldl_bumpFreq_val_le data [] 0 (by simp) e he

theorem buildFrequencyTable_length_le (data : List Nat)
    (hbytes : ∀ b ∈ data, b < 256) :
    (buildFrequencyTable data).length ≤ 256 := by
  have hnd := buildFrequencyTable_keys_nodup data
  have hsub : ((buildFrequencyTable data).map Prod.fst).toFinset ⊆ Finset.range 256 := by
    intro a ha
    rw [List.mem_toFinset] at ha
    exact Finset.mem_range.mpr (hbytes a (buildFrequencyTable_keys_mem ha))
  have hcard := Finset.card_le_card hsub
  rw [Finset.card_range, List.toFinset_card_of_nodup hnd] at hcard
  simpa using hcard

/-! ## Map lookups are order-independent -/

theorem lookupFT_eq_of_perm {β : Type} {l1 l2 : List (Nat × β)} (h : l1.Perm l2)
    (hnd : (l2.map Prod.fst).Nodup) (k : Nat) :
    lookupFT k l1 = lookupFT k l2 := by
  induction h with
  | nil => rfl
  | cons x h ih =>
      rcases x with ⟨a, b⟩
      rw [List.map_cons, List.nodup_cons] at hnd
      rcases eq_or_ne k a with hk | hk
      · subst hk; simp [lookupFT]
      · simp only [lookupFT, if_neg hk]
        exact ih hnd.2
  | swap x y l =>
      rcases x with ⟨a, b⟩
      rcases y with ⟨c, d⟩
      rw [List.map_cons, List.map_cons, List.nodup_cons] at hnd
      have hne : a ≠ c := fun hc => hnd.1 (by simp [hc])
      rcases eq_or_ne k a with hk | hk
      · subst hk; simp [lookupFT, hne]
      · rcases eq_or_ne k c with hk2 | hk2
        · subst hk2; simp [lookupFT, hk]
        · simp [lookupFT, hk, hk2]
  | trans h1 h2 ih1 ih2 =>
      have hndmid := (h2.map Prod.fst).nodup_iff.mpr hnd
      exact (ih1 hndmid).trans (ih2 hnd)

/-! ## Claim C5: header fidelity -/

/-- Claim C5: for the frequency table `compress` builds from its input,
parsing the header of the produced blob recovers exactly that table:
the parse returns the serialized entry list, and every symbol looks up
to the same count as in the original table (so the recovered map equals
the original map). -/
theorem header_fidelity (data : List Nat)
    (hdrOrder pqOrder : List (Nat × Nat) → List (Nat × Nat))
    (hne : data ≠ [])
    (hbytes : ∀ b ∈ data, b < 256)
    (hlen : data.length < 2 ^ 32)
    (hperm : (hdrOrder (buildFrequencyTable data)).Perm (buildFrequencyTable data)) :
    ∃ rest : List Nat,
      HuffmanCompress data hdrOrder pqOrder =
        .ok (writeHeader (hdrOrder (buildFrequencyTable data)) ++ rest) ∧
      parseHeader (writeHeader (hdrOrder (buildFrequencyTable data)) ++ rest) =
        .ok (hdrOrder (buildFrequencyTable data), rest) ∧
      ∀ b : Nat, lookupFT b (hdrOrder (buildFrequencyTable data)) =
        lookupFT b (buildFrequencyTable data) := by
  have hndT := buildFrequencyTable_keys_nodup data
  have hnd : ((hdrOrder (buildFrequencyTable data)).map Prod.fst).Nodup :=
    ((hperm.map Prod.fst).nodup_iff).mpr hndT
  have hb : ∀ e ∈ hdrOrder (buildFrequencyTable data), e.2 < 2 ^ 32 := by
    intro e he
    have : e ∈ buildFrequencyTable data := hperm.mem_iff.mp he
    exact lt_of_le_of_lt (buildFrequencyTable_val_le e this) hlen
  have hlen' : (hdrOrder (buildFrequencyTable data)).length < 2 ^ 16 := by
    have h1 := hperm.length_eq
    have h2 := buildFrequencyTable_length_le data hbytes
    omega
  refine ⟨u64le (encodeDataWithCount data
      (generateCodes (buildHuffmanTree (pqOrder (buildFrequencyTable data))) [] [])).2 ++
      (encodeDataWithCount data
      (generateCodes (buildHuffmanTree (pqOrder (buildFrequencyTable data))) [] [])).1, ?_, ?_, ?_⟩
  · simp [HuffmanCompress, if_neg hne]
  · exact parseHeader_writeHeader _ _ hb hnd hlen'
  · exact fun b => lookupFT_eq_of_perm hperm hndT b

/-- Witness for `header_fidelity` at the concrete input "abb" with the
identity iteration orders. -/
theorem header_fidelity_witness :
    ([97, 98, 98] : List Nat) ≠ [] ∧
    (∀ b ∈ ([97, 98, 98] : List Nat), b < 256) ∧
    ([97, 98, 98] : List Nat).length < 2 ^ 32 ∧
    (id (buildFrequencyTable [97, 98, 98])).Perm (buildFrequencyTable [97, 98, 98]) ∧
    ∃ rest : List Nat,
      HuffmanCompress [97, 98, 98] id id =
        .ok (writeHeader (id (buildFrequencyTable [97, 98, 98])) ++ rest) ∧
      parseHeader (writeHeader (id (buildFrequencyTable [97, 98, 98])) ++ rest) =
        .ok (id (buildFrequencyTable [97, 98, 98]), rest) ∧
      ∀ b : Nat, lookupFT b (id (buildFrequencyTable [97, 98, 98])) =
        lookupFT b (buildFrequencyTable [97, 98, 98]) :=
  ⟨by decide, by decide, by decide, List.Perm.refl _,
    header_fidelity [97, 98, 98] id id (by decide) (by decide) (by decide)
      (List.Perm.refl _)⟩


/-! ## Claim C8: truncated blobs yield framing errors -/

theorem readU32_some_of_length {l : List Nat} (h : 4 ≤ l.length) :
    ∃ f r, readU32 l = some (f, r) := by
  rcases l with _ | ⟨a, _ | ⟨b, _ | ⟨c, _ | ⟨d, t⟩⟩⟩⟩ <;> simp [readU32] at h ⊢ <;> omega

theorem readEntries_short : ∀ (n : Nat) (l : List Nat) (acc : List (Nat × Nat)),
    l.length < 5 * n →
    readEntries n l acc = .error .readHeaderByteFailed ∨
    readEntries n l acc = .error .readHeaderFreqFailed := by
  intro n
  induction n with
  | zero => intro l acc h; omega
  | succ n ih =>
      intro l acc h
      rcases l with _ | ⟨b, l1⟩
      · left; rfl
      · by_cases h4 : l1.length < 4
        · right
          simp [readEntries, readU32_none h4]
        · obtain ⟨f, l2, hr⟩ := readU32_some_of_length (by omega : 4 ≤ l1.length)
          have hl2 := readU32_some_length hr
          have : l2.length < 5 * n := by
            simp only [List.length_cons] at h
            omega
          simpa [readEntries, hr] using ih l2 (updateOrInsert b f acc) this

theorem readEntries_error_cases : ∀ (n : Nat) (l : List Nat) (acc : List (Nat × Nat))
    (e : DErr), readEntries n l acc = .error e →
    e = .readHeaderByteFailed ∨ e = .readHeaderFreqFailed := by
  intro n
  induction n with
  | zero => intro l acc e h; simp [readEntries] at h
  | succ n ih =>
      intro l acc e h
      rcases l with _ | ⟨b, l1⟩
      · left
        have : DErr.readHeaderByteFailed = e := by simpa [readEntries] using h
        exact this.symm
      · rcases hr : readU32 l1 with _ | ⟨f, l2⟩
        · right
          rw [readEntries, hr] at h
          exact (by simpa using h : DErr.readHeaderFreqFailed = e).symm
        · rw [readEntries, hr] at h
          exact ih l2 (updateOrInsert b f acc) e h

theorem readEntries_ok_length : ∀ (n : Nat) (l : List Nat) (acc E : List (Nat × Nat))
    (rest : List Nat), readEntries n l acc = .ok (E, rest) →
    rest.length + 5 * n = l.length := by
  intro n
  induction n with
  | zero =>
      intro l acc E rest h
      have : acc = E ∧ l = rest := by simpa [readEntries] using h
      rw [← this.2]
      simp
  | succ n ih =>
      intro l acc E rest h
      rcases l with _ | ⟨b, l1⟩
      · simp [readEntries] at h
      · rcases hr : readU32 l1 with _ | ⟨f, l2⟩
        · rw [readEntries, hr] at h
          simp at h
        · rw [readEntries, hr] at h
          have h1 := ih l2 (updateOrInsert b f acc) E rest h
          have h2 := readU32_some_length hr
          simp only [List.length_cons]
          omega

/-- Claim C8: whenever a blob is shorter than the `2 + 5·entryCount + 8`
bytes its own header declares — truncation at or inside the entry count,
a symbol byte, a frequency, or the `totalBitCount` field — decompression
returns one of the four framing errors: it neither crashes nor produces
output. -/
theorem truncated_blob_framing_error (blob : List Nat)
    (ord : List (Nat × Nat) → List (Nat × Nat))
    (h : blob.length < 2 + 5 * declaredEntries blob + 8) :
    isFramingError (HuffmanDecompress blob ord) = true := by
  rcases hr : readU16 blob with _ | ⟨n, r⟩
  · simp [HuffmanDecompress, parseHeader, hr, isFramingError]
  · have hn : declaredEntries blob = n := by simp [declaredEntries, hr]
    have hlen : r.length + 2 = blob.length := readU16_some_length hr
    by_cases h5 : r.length < 5 * n
    · rcases readEntries_short n r [] h5 with he | he
      · simp [HuffmanDecompress, parseHeader, hr, he, isFramingError]
      · simp [HuffmanDecompress, parseHeader, hr, he, isFramingError]
    · rcases hre : readEntries n r [] with e | ⟨E, rest⟩
      · rcases readEntries_error_cases n r [] e hre with rfl | rfl
        · simp [HuffmanDecompress, parseHeader, hr, hre, isFramingError]
        · simp [HuffmanDecompress, parseHeader, hr, hre, isFramingError]
      · have hrest := readEntries_ok_length n r [] E rest hre
        have h8 : rest.length < 8 := by rw [hn] at h; omega
        simp [HuffmanDecompress, parseHeader, hr, hre, readU64_none h8, isFramingError]

/-- Witness for `truncated_blob_framing_error`: the spec's own scenario —
a header declaring five entries whose buffer ends after two. -/
theorem truncated_blob_framing_error_witness :
    ([5, 0, 65, 1, 0, 0, 0, 66, 1, 0, 0, 0] : List Nat).length <
      2 + 5 * declaredEntries [5, 0, 65, 1, 0, 0, 0, 66, 1, 0, 0, 0] + 8 ∧
    isFramingError
      (HuffmanDecompress [5, 0, 65, 1, 0, 0, 0, 66, 1, 0, 0, 0] id) = true :=
  ⟨by decide, truncated_blob_framing_error _ id (by decide)⟩


/-! ## Claim C9: decoding never looks at bits at or beyond totalBitCount -/

theorem decodeInner_rem {root : Node} {b : Nat} :
    ∀ (rem j : Nat) (node : Node) (out : List Nat) (node2 : Node)
      (out2 : List Nat) (rem2 : Nat),
      decodeInner root b j node out rem = some (node2, out2, rem2) →
      rem2 = rem - (8 - j) := by
  intro rem
  induction rem with
  | zero =>
      intro j node out n2 o2 r2 h
      have : node = n2 ∧ out = o2 ∧ 0 = r2 := by simpa [decodeInner] using h
      omega
  | succ rem ih =>
      intro j node out n2 o2 r2 h
      simp only [decodeInner] at h
      by_cases hj : 8 ≤ j
      · rw [if_pos hj] at h
        have : node = n2 ∧ out = o2 ∧ rem + 1 = r2 := by simpa using h
        omega
      · rw [if_neg hj] at h
        rcases hs : stepBit root node ((b >>> (7 - j)) % 2) out with _ | ⟨nd2, ou2⟩
        · rw [hs] at h; simp at h
        · rw [hs] at h
          have := ih (j + 1) nd2 ou2 n2 o2 r2 h
          omega

theorem decodeInner_congr {root : Node} {b1 b2 : Nat} :
    ∀ (rem j : Nat) (node : Node) (out : List Nat),
      (∀ jj, j ≤ jj → jj < 8 → jj < j + rem →
        (b1 >>> (7 - jj)) % 2 = (b2 >>> (7 - jj)) % 2) →
      decodeInner root b1 j node out rem = decodeInner root b2 j node out rem := by
  intro rem
  induction rem with
  | zero => intro j node out _; rfl
  | succ rem ih =>
      intro j node out hbits
      simp only [decodeInner]
      by_cases hj : 8 ≤ j
      · rw [if_pos hj, if_pos hj]
      · rw [if_neg hj, if_neg hj]
        have hbit : (b1 >>> (7 - j)) % 2 = (b2 >>> (7 - j)) % 2 :=
          hbits j (Nat.le_refl j) (by omega) (by omega)
        rw [← hbit]
        rcases hs : stepBit root node ((b1 >>> (7 - j)) % 2) out with _ | ⟨nd2, ou2⟩
        · rfl
        · exact ih (j + 1) nd2 ou2
            (fun jj h1 h2 h3 => hbits jj (by omega) h2 (by omega))

theorem bitAt_cons_lt {b : Nat} {r : List Nat} {k : Nat} (h : k < 8) :
    bitAt (b :: r) k = (b >>> (7 - k)) % 2 := by
  have h1 : k / 8 = 0 := by omega
  have h2 : k % 8 = k := by omega
  simp [bitAt, h1, h2]

theorem bitAt_cons_add8 (b : Nat) (r : List Nat) (k : Nat) :
    bitAt (b :: r) (k + 8) = bitAt r k := by
  have h1 : (k + 8) / 8 = k / 8 + 1 := by omega
  have h2 : (k + 8) % 8 = k % 8 := by omega
  simp [bitAt, h1, h2]

theorem decodeOuter_congr (root : Node) :
    ∀ (d1 d2 : List Nat) (rem : Nat) (node : Node) (out : List Nat),
      d1.length = d2.length →
      (∀ k, k < rem → bitAt d1 k = bitAt d2 k) →
      decodeOuter root node out d1 rem = decodeOuter root node out d2 rem := by
  intro d1
  induction d1 with
  | nil =>
      intro d2 rem node out hlen _
      have : d2 = [] := List.length_eq_zero.mp hlen.symm
      subst this
      rfl
  | cons b1 r1 ih =>
      intro d2 rem node out hlen hbits
      rcases d2 with _ | ⟨b2, r2⟩
      · simp at hlen
      · rcases rem with _ | t
        · rfl
        · have hinner : decodeInner root b1 0 node out (t + 1) =
              decodeInner root b2 0 node out (t + 1) := by
            apply decodeInner_congr
            intro jj _ h8 hlt
            rw [← bitAt_cons_lt (b := b1) (r := r1) h8,
              ← bitAt_cons_lt (b := b2) (r := r2) h8]
            exact hbits jj (by omega)
          simp only [decodeOuter, hinner]
          rcases hdi : decodeInner root b2 0 node out (t + 1) with _ | ⟨n2, o2, rm2⟩
          · rfl
          · have hrm : rm2 = t + 1 - 8 := by
              simpa using decodeInner_rem (t + 1) 0 node out n2 o2 rm2 hdi
            apply ih
            · simpa using hlen
            · intro k hk
              rw [← bitAt_cons_add8 b1 r1 k, ← bitAt_cons_add8 b2 r2 k]
              exact hbits (k + 8) (by omega)

/-- Claim C9: decompression reads exactly `totalBitCount` bits and never
interprets bits at or beyond it.  Two blobs that parse to the same
header and bit count and whose packed sections have equal length and
agree on every bit position below `totalBitCount` — their padding may
differ arbitrarily — decompress to the same result. -/
theorem decode_ignores_padding_bits (blob1 blob2 : List Nat)
    (E : List (Nat × Nat)) (r1 r2 : List Nat) (tb : Nat) (d1 d2 : List Nat)
    (ord : List (Nat × Nat) → List (Nat × Nat))
    (h1 : parseHeader blob1 = .ok (E, r1))
    (h2 : parseHeader blob2 = .ok (E, r2))
    (h3 : readU64 r1 = some (tb, d1))
    (h4 : readU64 r2 = some (tb, d2))
    (hlen : d1.length = d2.length)
    (hbits : ∀ k, k < tb → bitAt d1 k = bitAt d2 k) :
    HuffmanDecompress blob1 ord = HuffmanDecompress blob2 ord := by
  simp only [HuffmanDecompress, h1, h2, h3, h4]
  by_cases hnil : buildHuffmanTree (ord E) = Node.nil
  · simp [hnil]
  · simp only [if_neg hnil]
    exact decodeOuter_congr _ d1 d2 tb _ [] hlen hbits

/-- Witness for `decode_ignores_padding_bits`: two blobs for the
two-symbol table `{65 ↦ 1, 66 ↦ 1}` with `totalBitCount = 2` whose
packed bytes agree on the top two bits but differ in all six padding
bits decode to the same output. -/
theorem decode_ignores_padding_bits_witness :
    parseHeader [2, 0, 65, 1, 0, 0, 0, 66, 1, 0, 0, 0, 2, 0, 0, 0, 0, 0, 0, 0, 64] =
      .ok ([(65, 1), (66, 1)], [2, 0, 0, 0, 0, 0, 0, 0, 64]) ∧
    parseHeader [2, 0, 65, 1, 0, 0, 0, 66, 1, 0, 0, 0, 2, 0, 0, 0, 0, 0, 0, 0, 127] =
      .ok ([(65, 1), (66, 1)], [2, 0, 0, 0, 0, 0, 0, 0, 127]) ∧
    readU64 [2, 0, 0, 0, 0, 0, 0, 0, 64] = some (2, [64]) ∧
    readU64 [2, 0, 0, 0, 0, 0, 0, 0, 127] = some (2, [127]) ∧
    ([64] : List Nat).length = ([127] : List Nat).length ∧
    (∀ k, k < 2 → bitAt [64] k = bitAt [127] k) ∧
    HuffmanDecompress [2, 0, 65, 1, 0, 0, 0, 66, 1, 0, 0, 0, 2, 0, 0, 0, 0, 0, 0, 0, 64] id =
      HuffmanDecompress [2, 0, 65, 1, 0, 0, 0, 66, 1, 0, 0, 0, 2, 0, 0, 0, 0, 0, 0, 0, 127] id :=
  ⟨by decide, by decide, by decide, by decide, by decide, by decide,
    decode_ignores_padding_bits
      [2, 0, 65, 1, 0, 0, 0, 66, 1, 0, 0, 0, 2, 0, 0, 0, 0, 0, 0, 0, 64]
      [2, 0, 65, 1, 0, 0, 0, 66, 1, 0, 0, 0, 2, 0, 0, 0, 0, 0, 0, 0, 127]
      [(65, 1), (66, 1)]
      [2, 0, 0, 0, 0, 0, 0, 0, 64] [2, 0, 0, 0, 0, 0, 0, 0, 127]
      2 [64] [127] id
      (by decide) (by decide) (by decide) (by decide) (by decide) (by decide)⟩


/-! ## The priority order and popMin -/

theorem lessNode_iff {a b : Node} :
    lessNode a b = true ↔
      a.freq < b.freq ∨ (a.freq = b.freq ∧ a.minChar < b.minChar) := by
  unfold lessNode
  by_cases h : a.freq = b.freq
  · simp [h]
  · simp [h]

theorem lessNode_asymm {a b : Node} (h : lessNode a b = true) :
    lessNode b a = false := by
  cases hba : lessNode b a with
  | false => rfl
  | true =>
      rw [lessNode_iff] at h hba
      omega

theorem notLess_trans {a b c : Node} (h1 : lessNode b a = false)
    (h2 : lessNode c b = false) : lessNode c a = false := by
  cases hca : lessNode c a with
  | false => rfl
  | true =>
      rw [lessNode_iff] at hca
      have h1' : ¬ lessNode b a = true := by simp [h1]
      have h2' : ¬ lessNode c b = true := by simp [h2]
      rw [lessNode_iff] at h1' h2'
      omega

theorem lessNode_total {a b : Node} (h : a.minChar ≠ b.minChar) :
    lessNode a b = true ∨ lessNode b a = true := by
  rw [lessNode_iff, lessNode_iff]
  omega

theorem popMin_eq_none {l : List Node} : popMin l = none ↔ l = [] := by
  cases l with
  | nil => simp [popMin]
  | cons x xs =>
      simp only [popMin]
      rcases h : popMin xs with _ | ⟨m, rest⟩
      · simp
      · by_cases hl : lessNode m x = true
        · simp [hl]
        · simp [hl]

theorem popMin_perm : ∀ {l : List Node} {x : Node} {r : List Node},
    popMin l = some (x, r) → l.Perm (x :: r) := by
  intro l
  induction l with
  | nil => intro x r h; simp [popMin] at h
  | cons a xs ih =>
      intro x r h
      rw [popMin] at h
      rcases hp : popMin xs with _ | ⟨m, rest⟩
      · rw [hp] at h
        have he : a = x ∧ [] = r := by simpa using h
        obtain ⟨rfl, rfl⟩ := he
        have : xs = [] := popMin_eq_none.mp hp
        subst this
        exact List.Perm.refl _
      · rw [hp] at h
        have h2 : (if lessNode m a = true then some (m, a :: rest)
            else some (a, xs)) = some (x, r) := h
        by_cases hl : lessNode m a = true
        · rw [if_pos hl] at h2
          have he : m = x ∧ a :: rest = r := by simpa using h2
          obtain ⟨rfl, rfl⟩ := he
          exact List.Perm.trans ((ih hp).cons a) (List.Perm.swap _ a rest)
        · rw [if_neg hl] at h2
          have he : a = x ∧ xs = r := by simpa using h2
          obtain ⟨rfl, rfl⟩ := he
          exact List.Perm.refl _

theorem popMin_min : ∀ {l : List Node} {x : Node} {r : List Node},
    popMin l = some (x, r) → ∀ y ∈ r, lessNode y x = false := by
  intro l
  induction l with
  | nil => intro x r h; simp [popMin] at h
  | cons a xs ih =>
      intro x r h y hy
      rw [popMin] at h
      rcases hp : popMin xs with _ | ⟨m, rest⟩
      · rw [hp] at h
        have he : a = x ∧ [] = r := by simpa using h
        rw [← he.2] at hy
        simp at hy
      · rw [hp] at h
        have h2 : (if lessNode m a = true then some (m, a :: rest)
            else some (a, xs)) = some (x, r) := h
        by_cases hl : lessNode m a = true
        · rw [if_pos hl] at h2
          have he : m = x ∧ a :: rest = r := by simpa using h2
          obtain ⟨rfl, hrest⟩ := he
          rw [← hrest] at hy
          rcases List.mem_cons.mp hy with rfl | hy'
          · exact lessNode_asymm hl
          · exact ih hp y hy'
        · rw [if_neg hl] at h2
          have he : a = x ∧ xs = r := by simpa using h2
          obtain ⟨rfl, hxs⟩ := he
          rw [← hxs] at hy
          have hnotless : lessNode m a = false := by simpa using hl
          rcases List.mem_cons.mp ((popMin_perm hp).mem_iff.mp hy) with rfl | hy'
          · exact hnotless
          · exact notLess_trans hnotless (ih hp y hy')

theorem popMin_unique {l l' : List Node}
    (hpw : l.Pairwise (fun a b => a.minChar ≠ b.minChar))
    (hperm : l.Perm l') {x x' : Node} {r r' : List Node}
    (h : popMin l = some (x, r)) (h' : popMin l' = some (x', r')) :
    x = x' ∧ r.Perm r' := by
  have hx : x ∈ l := (popMin_perm h).mem_iff.mpr (by simp)
  have hx' : x' ∈ l := hperm.mem_iff.mpr ((popMin_perm h').mem_iff.mpr (by simp))
  have hsym : Symmetric (fun a b : Node => a.minChar ≠ b.minChar) :=
    fun _ _ hab => hab.symm
  have hxx : x = x' := by
    by_contra hne
    have hmc : x.minChar ≠ x'.minChar := hpw.forall hsym hx hx' hne
    rcases lessNode_total hmc with hlt | hlt
    · have hxl' : x ∈ x' :: r' := (popMin_perm h').mem_iff.mp (hperm.mem_iff.mp hx)
      rcases List.mem_cons.mp hxl' with rfl | hxr'
      · exact hne rfl
      · rw [popMin_min h' x hxr'] at hlt
        exact Bool.false_ne_true hlt
    · have hx'l : x' ∈ x :: r := (popMin_perm h).mem_iff.mp hx'
      rcases List.mem_cons.mp hx'l with heq | hxr
      · exact hne heq.symm
      · rw [popMin_min h x' hxr] at hlt
        exact Bool.false_ne_true hlt
  subst hxx
  exact ⟨rfl, ((popMin_perm h).symm.trans (hperm.trans (popMin_perm h'))).cons_inv⟩


/-! ## Fullness of the built tree -/

theorem full_ne_nil {t : Node} (h : t.full = true) : t ≠ Node.nil := by
  intro heq
  subst heq
  simp [Node.full] at h

theorem full_merge {x y : Node} (hx : x.full = true) (hy : y.full = true)
    (c f mc : Nat) : (Node.mk c f mc x y).full = true := by
  rcases x with _ | ⟨x1, x2, x3, x4, x5⟩
  · simp [Node.full] at hx
  · rcases y with _ | ⟨y1, y2, y3, y4, y5⟩
    · simp [Node.full] at hy
    · show ((Node.mk x1 x2 x3 x4 x5).full && (Node.mk y1 y2 y3 y4 y5).full) = true
      rw [hx, hy]
      rfl

theorem mergeLoopF_pop_none {fuel : Nat} {pq : List Node}
    (h : popMin pq = none) : mergeLoopF (fuel + 1) pq = .nil := by
  simp only [mergeLoopF, h]

theorem mergeLoopF_pop_one {fuel : Nat} {pq : List Node} {x : Node}
    {r : List Node} (h1 : popMin pq = some (x, r)) (h2 : popMin r = none) :
    mergeLoopF (fuel + 1) pq = x := by
  simp only [mergeLoopF, h1, h2]

theorem mergeLoopF_pop_two {fuel : Nat} {pq : List Node} {x y : Node}
    {r r2 : List Node} (h1 : popMin pq = some (x, r))
    (h2 : popMin r = some (y, r2)) :
    mergeLoopF (fuel + 1) pq =
      mergeLoopF fuel
        (Node.mk 0 (x.freq + y.freq) (min x.minChar y.minChar) x y :: r2) := by
  simp only [mergeLoopF, h1, h2]

theorem mergeLoopF_full : ∀ (fuel : Nat) (pq : List Node),
    pq ≠ [] → pq.length ≤ fuel → (∀ t ∈ pq, t.full = true) →
    (mergeLoopF fuel pq).full = true := by
  intro fuel
  induction fuel with
  | zero =>
      intro pq hne hlen _
      exact absurd (List.eq_nil_of_length_eq_zero (Nat.le_zero.mp hlen)) hne
  | succ fuel ih =>
      intro pq hne hlen hfull
      rcases hp : popMin pq with _ | ⟨x, r⟩
      · exact absurd (popMin_eq_none.mp hp) hne
      · have hperm := popMin_perm hp
        have hx : x.full = true := hfull x (hperm.mem_iff.mpr (by simp))
        rcases hq : popMin r with _ | ⟨y, r2⟩
        · rw [mergeLoopF_pop_one hp hq]
          exact hx
        · have hperm2 := popMin_perm hq
          have hyr : y ∈ r := hperm2.mem_iff.mpr (by simp)
          have hy : y.full = true := hfull y (hperm.mem_iff.mpr (by simp [hyr]))
          rw [mergeLoopF_pop_two hp hq]
          apply ih
          · simp
          · have e1 := hperm.length_eq
            have e2 := hperm2.length_eq
            simp only [List.length_cons] at e1 e2 ⊢
            omega
          · intro t ht
            rcases List.mem_cons.mp ht with rfl | ht'
            · exact full_merge hx hy 0 _ _
            · have htr : t ∈ r := hperm2.mem_iff.mpr (by simp [ht'])
              exact hfull t (hperm.mem_iff.mpr (by simp [htr]))

theorem buildHuffmanTree_full {E : List (Nat × Nat)} (hne : E ≠ []) :
    (buildHuffmanTree E).full = true := by
  unfold buildHuffmanTree
  rw [if_neg hne]
  apply mergeLoopF_full
  · simp [hne]
  · simp
  · intro t ht
    obtain ⟨e, he, rfl⟩ := List.mem_map.mp ht
    rfl

/-! ## Codes are root-to-leaf paths -/

theorem mem_generateCodes : ∀ (t : Node) (pre : List Bool)
    (m : List (Nat × List Bool)) (e : Nat × List Bool),
    e ∈ generateCodes t pre m →
    e ∈ m ∨ ∃ path a, Leads t path a ∧ e = (a, pre ++ path) := by
  intro t
  induction t with
  | nil => intro pre m e h; left; exact h
  | mk c f mc l r ihl ihr =>
      intro pre m e h
      rcases l with _ | ⟨lc, lf, lmc, ll, lr⟩
      · rcases r with _ | ⟨rc, rf, rmc, rl, rr⟩
        · have h' : e ∈ updateOrInsert c pre m := h
          rcases mem_updateOrInsert h' with rfl | hm
          · right
            exact ⟨[], c, Leads.leaf c f mc, by simp⟩
          · left; exact hm
        · have h' : e ∈ generateCodes (Node.mk rc rf rmc rl rr)
              (pre ++ [true]) m := h
          rcases ihr (pre ++ [true]) m e h' with hm | ⟨path, a, hlead, he⟩
          · left; exact hm
          · right
            exact ⟨true :: path, a, Leads.right c f mc _ hlead,
              by simp [he]⟩
      · have h' : e ∈ generateCodes r (pre ++ [true])
            (generateCodes (Node.mk lc lf lmc ll lr) (pre ++ [false]) m) := h
        rcases ihr (pre ++ [true]) _ e h' with hm | ⟨path, a, hlead, he⟩
        · rcases ihl (pre ++ [false]) m e hm with hm2 | ⟨path, a, hlead, he⟩
          · left; exact hm2
          · right
            exact ⟨false :: path, a, Leads.left c f mc _ hlead,
              by simp [he]⟩
        · right
          exact ⟨true :: path, a, Leads.right c f mc _ hlead,
            by simp [he]⟩

theorem leads_full_path_eq : ∀ (t : Node), t.full = true →
    ∀ (p1 p2 : List Bool) (a b : Nat), Leads t p1 a → Leads t p2 b →
    p1 <+: p2 → p1 = p2 := by
  intro t
  induction t with
  | nil => intro h; simp [Node.full] at h
  | mk c f mc l r ihl ihr =>
      intro hfull p1 p2 a b h1 h2 hpre
      rcases l with _ | ⟨lc, lf, lmc, ll, lr⟩
      · rcases r with _ | ⟨rc, rf, rmc, rl, rr⟩
        · cases h1 with
          | leaf =>
              cases h2 with
              | leaf => rfl
              | left c' f' mc' r' hL => cases hL
              | right c' f' mc' l' hR => cases hR
          | left c' f' mc' r' hL => cases hL
          | right c' f' mc' l' hR => cases hR
        · simp [Node.full] at hfull
      · rcases r with _ | ⟨rc, rf, rmc, rl, rr⟩
        · have : ((Node.mk lc lf lmc ll lr).full && Node.nil.full) = true := hfull
          simp [Node.full] at this
        · have hand : ((Node.mk lc lf lmc ll lr).full &&
              (Node.mk rc rf rmc rl rr).full) = true := hfull
          have hlf := (Bool.and_eq_true _ _).mp hand
          cases h1 with
          | left c1 f1 mc1 r1 hL1 =>
              cases h2 with
              | left c2 f2 mc2 r2 hL2 =>
                  rcases hpre with ⟨tl, htl⟩
                  simp only [List.cons_append, List.cons.injEq] at htl
                  have := ihl hlf.1 _ _ _ _ hL1 hL2 ⟨tl, htl.2⟩
                  rw [this]
              | right c2 f2 mc2 l2 hR2 =>
                  rcases hpre with ⟨tl, htl⟩
                  simp only [List.cons_append, List.cons.injEq] at htl
                  exact absurd htl.1 (by simp)
          | right c1 f1 mc1 l1 hR1 =>
              cases h2 with
              | left c2 f2 mc2 r2 hL2 =>
                  rcases hpre with ⟨tl, htl⟩
                  simp only [List.cons_append, List.cons.injEq] at htl
                  exact absurd htl.1 (by simp)
              | right c2 f2 mc2 l2 hR2 =>
                  rcases hpre with ⟨tl, htl⟩
                  simp only [List.cons_append, List.cons.injEq] at htl
                  have := ihr hlf.2 _ _ _ _ hR1 hR2 ⟨tl, htl.2⟩
                  rw [this]

/-! ## Claim C6: the code table is prefix-free -/

/-- Claim C6: in the code table generated from a tree built from a
non-empty frequency table, no code is a prefix of another distinct
code.  (For a single-entry table the table holds one code, so the claim
holds vacuously — even though that one code is empty.) -/
theorem codeTable_prefix_free (E : List (Nat × Nat)) (hne : E ≠ [])
    (a b : Nat) (ca cb : List Bool)
    (ha : (a, ca) ∈ generateCodes (buildHuffmanTree E) [] [])
    (hb : (b, cb) ∈ generateCodes (buildHuffmanTree E) [] [])
    (hneq : ca ≠ cb) :
    ¬ ca <+: cb := by
  intro hpre
  have hfull := buildHuffmanTree_full hne
  rcases mem_generateCodes _ [] [] _ ha with hm | ⟨p1, a1, hl1, he1⟩
  · simp at hm
  · rcases mem_generateCodes _ [] [] _ hb with hm | ⟨p2, a2, hl2, he2⟩
    · simp at hm
    · have e1 : ca = p1 := by simpa using congrArg Prod.snd he1
      have e2 : cb = p2 := by simpa using congrArg Prod.snd he2
      subst e1
      subst e2
      exact hneq (leads_full_path_eq _ hfull _ _ _ _ hl1 hl2 hpre)

/-- Witness for `codeTable_prefix_free`: the three-symbol table
`{97 ↦ 2, 98 ↦ 1, 99 ↦ 1}` yields codes `0` for 97 and `10` for 98,
and neither is a prefix of the other. -/
theorem codeTable_prefix_free_witness :
    ([(97, 2), (98, 1), (99, 1)] : List (Nat × Nat)) ≠ [] ∧
    (97, [false]) ∈ generateCodes (buildHuffmanTree [(97, 2), (98, 1), (99, 1)]) [] [] ∧
    (98, [true, false]) ∈ generateCodes (buildHuffmanTree [(97, 2), (98, 1), (99, 1)]) [] [] ∧
    [false] ≠ [true, false] ∧
    ¬ ([false] : List Bool) <+: [true, false] :=
  ⟨by decide, by decide, by decide, by decide,
    codeTable_prefix_free [(97, 2), (98, 1), (99, 1)] (by decide)
      97 98 [false] [true, false] (by decide) (by decide) (by decide)⟩


/-! ## The queue invariant and order-independence of the merge loop -/

theorem charsDisjoint_symm :
    Symmetric (fun a b : Node => ∀ c ∈ a.chars, c ∉ b.chars) :=
  fun _ _ hab c hcy hcx => hab c hcx hcy

theorem InvPQ.minChar_pairwise {pq : List Node} (h : InvPQ pq) :
    pq.Pairwise (fun a b => a.minChar ≠ b.minChar) := by
  rcases h with ⟨hmem, hdisj⟩
  refine List.Pairwise.imp_of_mem ?_ hdisj
  intro a b ha hb hr heq
  exact hr a.minChar (hmem a ha) (heq ▸ hmem b hb)

theorem InvPQ.perm {pq pq' : List Node} (h : InvPQ pq) (hp : pq.Perm pq') :
    InvPQ pq' := by
  rcases h with ⟨hmem, hdisj⟩
  exact ⟨fun t ht => hmem t (hp.mem_iff.mpr ht),
    (hp.pairwise_iff (fun {_ _} h => charsDisjoint_symm h)).mp hdisj⟩

theorem InvPQ.tail {x : Node} {r : List Node} (h : InvPQ (x :: r)) : InvPQ r := by
  rcases h with ⟨hmem, hdisj⟩
  exact ⟨fun t ht => hmem t (by simp [ht]), hdisj.of_cons⟩

theorem chars_merge {x : Node} (hx : x ≠ Node.nil) (y : Node) (c f mc : Nat) :
    (Node.mk c f mc x y).chars = x.chars ++ y.chars := by
  rcases x with _ | ⟨x1, x2, x3, x4, x5⟩
  · exact absurd rfl hx
  · rfl

theorem merge_minChar_mem {x y : Node} (hx : x ≠ Node.nil)
    (hmx : x.minChar ∈ x.chars) (hmy : y.minChar ∈ y.chars) (c f : Nat) :
    (Node.mk c f (min x.minChar y.minChar) x y).minChar ∈
      (Node.mk c f (min x.minChar y.minChar) x y).chars := by
  rw [chars_merge hx]
  show min x.minChar y.minChar ∈ _
  rcases min_choice x.minChar y.minChar with h | h
  · rw [h]
    exact List.mem_append_left _ hmx
  · rw [h]
    exact List.mem_append_right _ hmy

theorem inv_merge_cons {x y : Node} {r2 : List Node}
    (hfull : ∀ t ∈ x :: y :: r2, t.full = true)
    (hinv : InvPQ (x :: y :: r2)) :
    (∀ t ∈ Node.mk 0 (x.freq + y.freq) (min x.minChar y.minChar) x y :: r2,
      t.full = true) ∧
    InvPQ (Node.mk 0 (x.freq + y.freq) (min x.minChar y.minChar) x y :: r2) := by
  have hxf : x.full = true := hfull x (by simp)
  have hyf : y.full = true := hfull y (by simp)
  have hxn := full_ne_nil hxf
  rcases hinv with ⟨hmem, hdisj⟩
  rw [List.pairwise_cons] at hdisj
  obtain ⟨hx_rest, hdisj⟩ := hdisj
  rw [List.pairwise_cons] at hdisj
  obtain ⟨hy_rest, hdisj⟩ := hdisj
  refine ⟨?_, ?_, ?_⟩
  · intro t ht
    rcases List.mem_cons.mp ht with rfl | ht'
    · exact full_merge hxf hyf 0 _ _
    · exact hfull t (by simp [ht'])
  · intro t ht
    rcases List.mem_cons.mp ht with rfl | ht'
    · exact merge_minChar_mem hxn (hmem x (by simp)) (hmem y (by simp)) 0 _
    · exact hmem t (by simp [ht'])
  · rw [List.pairwise_cons]
    refine ⟨?_, hdisj⟩
    intro b hb c hc
    rw [chars_merge hxn] at hc
    rcases List.mem_append.mp hc with hcx | hcy
    · exact hx_rest b (by simp [hb]) c hcx
    · exact hy_rest b hb c hcy

theorem mergeLoopF_congr : ∀ (fuel : Nat) (pq pq' : List Node),
    (∀ t ∈ pq, t.full = true) → InvPQ pq → pq.Perm pq' →
    mergeLoopF fuel pq = mergeLoopF fuel pq' := by
  intro fuel
  induction fuel with
  | zero => intro pq pq' _ _ _; rfl
  | succ fuel ih =>
      intro pq pq' hfull hinv hperm
      rcases hp : popMin pq with _ | ⟨x, r⟩
      · have h1 : pq = [] := popMin_eq_none.mp hp
        subst h1
        have h2 : pq' = [] := hperm.symm.eq_nil
        subst h2
        rfl
      · rcases hp' : popMin pq' with _ | ⟨x', r'⟩
        · have h2 : pq' = [] := popMin_eq_none.mp hp'
          subst h2
          have h1 : pq = [] := hperm.eq_nil
          subst h1
          simp [popMin] at hp
        · have hpw := InvPQ.minChar_pairwise hinv
          obtain ⟨rfl, hr⟩ := popMin_unique hpw hperm hp hp'
          have hinv_xr := InvPQ.perm hinv (popMin_perm hp)
          rcases hq : popMin r with _ | ⟨y, r2⟩
          · have h1 : r = [] := popMin_eq_none.mp hq
            subst h1
            have h2 : r' = [] := hr.symm.eq_nil
            subst h2
            rw [mergeLoopF_pop_one hp hq, mergeLoopF_pop_one hp' rfl]
          · rcases hq' : popMin r' with _ | ⟨y', r2'⟩
            · have h2 : r' = [] := popMin_eq_none.mp hq'
              subst h2
              have h1 : r = [] := hr.eq_nil
              subst h1
              simp [popMin] at hq
            · have hpwr := InvPQ.minChar_pairwise (InvPQ.tail hinv_xr)
              obtain ⟨rfl, hr2⟩ := popMin_unique hpwr hr hq hq'
              rw [mergeLoopF_pop_two hp hq, mergeLoopF_pop_two hp' hq']
              have hp2 : pq.Perm (x :: y :: r2) :=
                (popMin_perm hp).trans ((popMin_perm hq).cons x)
              have hfull2 : ∀ t ∈ x :: y :: r2, t.full = true :=
                fun t ht => hfull t (hp2.mem_iff.mpr ht)
              obtain ⟨hfull3, hinv3⟩ := inv_merge_cons hfull2 (InvPQ.perm hinv hp2)
              exact ih _ _ hfull3 hinv3 (hr2.cons _)

theorem buildHuffmanTree_congr {E E' : List (Nat × Nat)} (hperm : E.Perm E')
    (hnd : (E.map Prod.fst).Nodup) :
    buildHuffmanTree E = buildHuffmanTree E' := by
  by_cases hE : E = []
  · subst hE
    have : E' = [] := hperm.symm.eq_nil
    subst this
    rfl
  · have hE' : E' ≠ [] := fun h => hE ((h ▸ hperm).eq_nil)
    unfold buildHuffmanTree
    rw [if_neg hE, if_neg hE', ← hperm.length_eq]
    apply mergeLoopF_congr
    · intro t ht
      obtain ⟨e, he, rfl⟩ := List.mem_map.mp ht
      rfl
    · refine ⟨?_, ?_⟩
      · intro t ht
        obtain ⟨e, he, rfl⟩ := List.mem_map.mp ht
        show e.1 ∈ [e.1]
        simp
      · rw [List.pairwise_map]
        have hnd2 : E.Pairwise (fun e1 e2 : Nat × Nat => e1.1 ≠ e2.1) :=
          List.pairwise_map.mp hnd
        refine hnd2.imp ?_
        intro e1 e2 hne12 c hc1 hc2
        simp [Node.chars] at hc1 hc2
        exact hne12 (hc1.symm.trans hc2 : e1.1 = e2.1)
    · exact hperm.map _

/-! ## Claim C4 (amended): determinism up to header entry order -/

/-- Claim C4 (amended): compressing the same non-empty input under any
two legal map-iteration orders yields the same tree, hence the same
codes, the same `totalBitCount` and the same packed bytes — the blobs
share one tail and differ at most in the order of the header's
(symbol, frequency) entries, which serialize the same entry set. -/
theorem compress_deterministic_up_to_header_order (data : List Nat)
    (hdr1 pq1 hdr2 pq2 : List (Nat × Nat) → List (Nat × Nat))
    (hne : data ≠ [])
    (hp1 : (pq1 (buildFrequencyTable data)).Perm (buildFrequencyTable data))
    (hp2 : (pq2 (buildFrequencyTable data)).Perm (buildFrequencyTable data))
    (hh1 : (hdr1 (buildFrequencyTable data)).Perm (buildFrequencyTable data))
    (hh2 : (hdr2 (buildFrequencyTable data)).Perm (buildFrequencyTable data)) :
    ∃ tail : List Nat,
      HuffmanCompress data hdr1 pq1 =
        .ok (writeHeader (hdr1 (buildFrequencyTable data)) ++ tail) ∧
      HuffmanCompress data hdr2 pq2 =
        .ok (writeHeader (hdr2 (buildFrequencyTable data)) ++ tail) ∧
      (hdr1 (buildFrequencyTable data)).Perm (hdr2 (buildFrequencyTable data)) := by
  have hnd1 : ((pq1 (buildFrequencyTable data)).map Prod.fst).Nodup :=
    ((hp1.map Prod.fst).nodup_iff).mpr (buildFrequencyTable_keys_nodup data)
  have htree : buildHuffmanTree (pq1 (buildFrequencyTable data)) =
      buildHuffmanTree (pq2 (buildFrequencyTable data)) :=
    buildHuffmanTree_congr (hp1.trans hp2.symm) hnd1
  refine ⟨u64le (encodeDataWithCount data
      (generateCodes (buildHuffmanTree (pq1 (buildFrequencyTable data))) [] [])).2 ++
    (encodeDataWithCount data
      (generateCodes (buildHuffmanTree (pq1 (buildFrequencyTable data))) [] [])).1,
    ?_, ?_, hh1.trans hh2.symm⟩
  · simp [HuffmanCompress, if_neg hne]
  · simp [HuffmanCompress, if_neg hne, ← htree]

/-- Witness for `compress_deterministic_up_to_header_order` on the
input "ab" with the identity order for one run and the reversed order
for the other. -/
theorem compress_deterministic_up_to_header_order_witness :
    ([97, 98] : List Nat) ≠ [] ∧
    (id (buildFrequencyTable [97, 98])).Perm (buildFrequencyTable [97, 98]) ∧
    ((buildFrequencyTable [97, 98]).reverse).Perm (buildFrequencyTable [97, 98]) ∧
    ∃ tail : List Nat,
      HuffmanCompress [97, 98] id id =
        .ok (writeHeader (id (buildFrequencyTable [97, 98])) ++ tail) ∧
      HuffmanCompress [97, 98] (fun l => l.reverse) (fun l => l.reverse) =
        .ok (writeHeader ((fun l => l.reverse) (buildFrequencyTable [97, 98])) ++ tail) ∧
      (id (buildFrequencyTable [97, 98])).Perm
        ((fun l => l.reverse) (buildFrequencyTable [97, 98])) :=
  ⟨by decide, List.Perm.refl _, List.reverse_perm _,
    compress_deterministic_up_to_header_order [97, 98] id id
      (fun l => l.reverse) (fun l => l.reverse) (by decide)
      (List.Perm.refl _) (List.reverse_perm _)
      (List.Perm.refl _) (List.reverse_perm _)⟩


/-! ## Claim C10 (amended): single-entry blobs with positive bit count crash -/

/-- Claim C10 (amended): for every blob whose header parses to a
one-entry frequency table and whose `totalBitCount` is positive,
`HuffmanDecompress` is not total: the rebuilt tree's root is a leaf, so
the very first bit steps to a nil child and the following `node.Left`
check dereferences the nil pointer (a panic) when packed data is
present; with no packed byte at all, the `bitData[0]` access panics
with an index out of range instead. -/
theorem singleEntry_decode_always_crashes (sym f tb : Nat) (rest : List Nat)
    (ord : List (Nat × Nat) → List (Nat × Nat))
    (hf : f < 2 ^ 32) (htb0 : 0 < tb) (htb : tb < 2 ^ 64)
    (hord : (ord [(sym, f)]).Perm [(sym, f)]) :
    HuffmanDecompress (1 :: 0 :: sym :: (u32le f ++ (u64le tb ++ rest))) ord =
      .crash (if rest = [] then .indexOutOfRange else .nilDeref) := by
  have hord' : ord [(sym, f)] = [(sym, f)] := List.perm_singleton.mp hord
  have hparse : parseHeader (1 :: 0 :: sym :: (u32le f ++ (u64le tb ++ rest))) =
      .ok ([(sym, f)], u64le tb ++ rest) := by
    show (match readU16 (1 :: 0 :: sym :: (u32le f ++ (u64le tb ++ rest))) with
      | none => Except.error DErr.readHeaderEntriesFailed
      | some (n, r) => readEntries n r []) = _
    simp only [readU16]
    show readEntries 1 (sym :: (u32le f ++ (u64le tb ++ rest))) [] = _
    show (match readU32 (u32le f ++ (u64le tb ++ rest)) with
      | none => Except.error DErr.readHeaderFreqFailed
      | some (fr, l2) => readEntries 0 l2 (updateOrInsert sym fr [])) = _
    rw [readU32_u32le, Nat.mod_eq_of_lt hf]
    rfl
  have hread : readU64 (u64le tb ++ rest) = some (tb, rest) := by
    rw [readU64_u64le, Nat.mod_eq_of_lt htb]
  have htree : buildHuffmanTree (ord [(sym, f)]) =
      Node.mk sym f sym .nil .nil := by
    rw [hord']
    rfl
  simp only [HuffmanDecompress, hparse, hread, htree]
  rw [if_neg (by intro h; cases h)]
  rcases tb with _ | t
  · omega
  · rcases rest with _ | ⟨b0, rest2⟩
    · simp [decodeOuter]
    · have hstep : stepBit (Node.mk sym f sym .nil .nil)
          (Node.mk sym f sym .nil .nil) ((b0 >>> 7) % 2) [] = none := by
        show (match (if (b0 >>> 7) % 2 = 0 then Node.nil else Node.nil) with
          | Node.nil => none
          | Node.mk c f' mc nl nr =>
              if nl = Node.nil ∧ nr = Node.nil
              then some (Node.mk sym f sym Node.nil Node.nil, [] ++ [c])
              else some (Node.mk c f' mc nl nr, [])) = none
        rw [ite_self]
      simp only [decodeOuter, decodeInner, hstep]
      simp

/-- Witness for `singleEntry_decode_always_crashes`: the concrete blob
declaring one entry `(65, 10)`, `totalBitCount = 1`, with one packed
byte. -/
theorem singleEntry_decode_always_crashes_witness :
    (10 : Nat) < 2 ^ 32 ∧ (0 : Nat) < 1 ∧ (1 : Nat) < 2 ^ 64 ∧
    (id [((65 : Nat), (10 : Nat))]).Perm [(65, 10)] ∧
    HuffmanDecompress (1 :: 0 :: 65 :: (u32le 10 ++ (u64le 1 ++ [0]))) id =
      .crash (if ([0] : List Nat) = [] then .indexOutOfRange else .nilDeref) :=
  ⟨by decide, by decide, by decide, List.Perm.refl _,
    singleEntry_decode_always_crashes 65 10 1 [0] id (by decide) (by decide)
      (by decide) (List.Perm.refl _)⟩

end Huffmin
